import Mathlib

/-!
Verification of the Minibot simulator (minibot_env.py).

The simulator works with real-valued poses, but every number it manipulates on
the code paths covered by the claims lies in the subring of the reals of the
form (A + B * sqrt 3) / D with integers A, B, D (the sensor rotation matrices
for the candidate orientations of reset_to_state have entries 0, 1/2,
sqrt 3 / 2, 1 and their negations; everything else is rational).  We therefore
embed the arithmetic in the executable type `K` of such triples with D > 0.
The order, the floor and the numpy-style rounding on `K` are implemented by
integer computations and verified against the real value `toReal`.
-/

structure K where
  A : ℤ
  B : ℤ
  D : ℤ
  dpos : 0 < D

instance : OfNat K n := ⟨⟨n, 0, 1, Int.zero_lt_one⟩⟩
instance : NatCast K := ⟨fun n => ⟨n, 0, 1, Int.zero_lt_one⟩⟩
instance : IntCast K := ⟨fun n => ⟨n, 0, 1, Int.zero_lt_one⟩⟩
instance : Add K := ⟨fun x y => ⟨x.A * y.D + y.A * x.D, x.B * y.D + y.B * x.D, x.D * y.D, Int.mul_pos x.dpos y.dpos⟩⟩
instance : Neg K := ⟨fun x => ⟨-x.A, -x.B, x.D, x.dpos⟩⟩
instance : Sub K := ⟨fun x y => ⟨x.A * y.D - y.A * x.D, x.B * y.D - y.B * x.D, x.D * y.D, Int.mul_pos x.dpos y.dpos⟩⟩
instance : Mul K := ⟨fun x y => ⟨x.A * y.A + 3 * (x.B * y.B), x.A * y.B + x.B * y.A, x.D * y.D, Int.mul_pos x.dpos y.dpos⟩⟩

/-- `kinv` inverts a nonzero element of `K` via the conjugate; on (semantic)
zero it returns zero, matching the Lean convention for the real inverse. -/
def kinv (x : K) : K :=
  let c : ℤ := x.A * x.A - 3 * (x.B * x.B)
  if h : 0 < c then ⟨x.D * x.A, -(x.D * x.B), c, h⟩
  else if h2 : 0 < -c then ⟨-(x.D * x.A), x.D * x.B, -c, h2⟩
  else ⟨0, 0, 1, Int.zero_lt_one⟩

instance : Inv K := ⟨kinv⟩
instance : Div K := ⟨fun x y => x * kinv y⟩

/-- Decides `0 ≤ A + B * sqrt 3` by integer sign tests and squaring. -/
def intNonneg (a b : ℤ) : Prop :=
  (0 ≤ b ∧ (0 ≤ a ∨ a * a ≤ 3 * (b * b))) ∨ (b < 0 ∧ 0 ≤ a ∧ 3 * (b * b) ≤ a * a)

instance (a b : ℤ) : Decidable (intNonneg a b) := by
  unfold intNonneg; infer_instance

/-- Semantic nonnegativity of an element of `K` (the denominator is positive,
so only the numerator `A + B * sqrt 3` matters). -/
def knonneg (x : K) : Prop := intNonneg x.A x.B

instance (x : K) : Decidable (knonneg x) := by
  unfold knonneg; infer_instance

instance : LE K := ⟨fun x y => knonneg (y - x)⟩
instance : LT K := ⟨fun x y => ¬ knonneg (x - y)⟩

instance (x y : K) : Decidable (x ≤ y) := inferInstanceAs (Decidable (knonneg _))
instance (x y : K) : Decidable (x < y) := inferInstanceAs (Decidable (¬ knonneg _))

/-- Semantic (value) equality on `K`; triples are not unique representations. -/
def keq (x y : K) : Prop := x ≤ y ∧ y ≤ x

instance (x y : K) : Decidable (keq x y) := by
  unfold keq; infer_instance

/-- The real number denoted by a triple. -/
noncomputable def toReal (x : K) : ℝ := (x.A + x.B * Real.sqrt 3) / x.D

theorem sqrt3_mul_self : Real.sqrt 3 * Real.sqrt 3 = 3 :=
  Real.mul_self_sqrt (by norm_num)

theorem sqrt3_nonneg : (0:ℝ) ≤ Real.sqrt 3 := Real.sqrt_nonneg 3

theorem sqrt3_pos : (0:ℝ) < Real.sqrt 3 := Real.sqrt_pos.mpr (by norm_num)

theorem irrational_sqrt3 : Irrational (Real.sqrt 3) := by
  have h := Nat.prime_three.irrational_sqrt
  simpa using h

theorem kD_ne (x : K) : (x.D : ℝ) ≠ 0 := by
  exact_mod_cast (ne_of_gt x.dpos)

theorem kD_pos (x : K) : (0:ℝ) < (x.D : ℝ) := by exact_mod_cast x.dpos

theorem toReal_add (x y : K) : toReal (x + y) = toReal x + toReal y := by
  have hx := kD_ne x
  have hy := kD_ne y
  show ((((x.A * y.D + y.A * x.D : ℤ) : ℝ) + ((x.B * y.D + y.B * x.D : ℤ) : ℝ) * Real.sqrt 3) / ((x.D * y.D : ℤ) : ℝ)) = _
  rw [toReal, toReal]
  push_cast
  field_simp
  ring

theorem toReal_sub (x y : K) : toReal (x - y) = toReal x - toReal y := by
  have hx := kD_ne x
  have hy := kD_ne y
  show ((((x.A * y.D - y.A * x.D : ℤ) : ℝ) + ((x.B * y.D - y.B * x.D : ℤ) : ℝ) * Real.sqrt 3) / ((x.D * y.D : ℤ) : ℝ)) = _
  rw [toReal, toReal]
  push_cast
  field_simp
  ring

theorem toReal_neg (x : K) : toReal (-x) = -toReal x := by
  show (((-x.A : ℤ) : ℝ) + ((-x.B : ℤ) : ℝ) * Real.sqrt 3) / (x.D : ℝ) = _
  rw [toReal]
  push_cast
  ring

theorem toReal_mul (x y : K) : toReal (x * y) = toReal x * toReal y := by
  show ((((x.A * y.A + 3 * (x.B * y.B) : ℤ) : ℝ) + ((x.A * y.B + x.B * y.A : ℤ) : ℝ) * Real.sqrt 3) / ((x.D * y.D : ℤ) : ℝ)) = _
  rw [toReal, toReal, div_mul_div_comm]
  push_cast
  congr 1
  linear_combination (-((x.B : ℝ) * y.B)) * sqrt3_mul_self

theorem toReal_intCast (n : ℤ) : toReal (n : K) = n := by
  show ((n : ℝ) + (0 : ℤ) * Real.sqrt 3) / ((1 : ℤ) : ℝ) = _
  push_cast
  ring

theorem toReal_natCast (n : ℕ) : toReal (n : K) = n := by
  show ((n : ℝ) + ((0 : ℤ) : ℝ) * Real.sqrt 3) / ((1 : ℤ) : ℝ) = _
  push_cast
  ring

theorem toReal_ofNat (n : ℕ) [n.AtLeastTwo] :
    toReal (OfNat.ofNat n : K) = OfNat.ofNat n := by
  show ((OfNat.ofNat n : ℤ) + ((0 : ℤ) : ℝ) * Real.sqrt 3) / ((1 : ℤ) : ℝ) = _
  push_cast
  ring

theorem toReal_zero : toReal (0 : K) = 0 := by
  show (((0 : ℤ) : ℝ) + ((0 : ℤ) : ℝ) * Real.sqrt 3) / ((1 : ℤ) : ℝ) = 0
  norm_num

theorem toReal_one : toReal (1 : K) = 1 := by
  show (((1 : ℤ) : ℝ) + ((0 : ℤ) : ℝ) * Real.sqrt 3) / ((1 : ℤ) : ℝ) = 1
  norm_num

theorem intNonneg_iff (a b : ℤ) : intNonneg a b ↔ (0:ℝ) ≤ a + b * Real.sqrt 3 := by
  have hs := sqrt3_mul_self
  have hs0 := sqrt3_nonneg
  have hsp := sqrt3_pos
  constructor
  · rintro (⟨hb, ha | ha⟩ | ⟨hb, ha, h⟩)
    · have hb' : (0:ℝ) ≤ (b : ℝ) := by exact_mod_cast hb
      have ha' : (0:ℝ) ≤ (a : ℝ) := by exact_mod_cast ha
      nlinarith
    · have hb' : (0:ℝ) ≤ (b : ℝ) := by exact_mod_cast hb
      have ha' : ((a : ℝ)) * a ≤ 3 * ((b : ℝ) * b) := by exact_mod_cast ha
      by_contra hneg
      push_neg at hneg
      have hv : (0:ℝ) ≤ (b : ℝ) * Real.sqrt 3 := mul_nonneg hb' hs0
      have h1 : ((a : ℝ) + b * Real.sqrt 3) * (((a : ℝ) + b * Real.sqrt 3) - 2 * ((b : ℝ) * Real.sqrt 3)) > 0 :=
        mul_pos_of_neg_of_neg hneg (by linarith)
      nlinarith [h1, hs]
    · have hb' : ((b : ℝ)) < 0 := by exact_mod_cast hb
      have ha' : (0:ℝ) ≤ (a : ℝ) := by exact_mod_cast ha
      have h' : 3 * ((b : ℝ) * b) ≤ (a : ℝ) * a := by exact_mod_cast h
      by_contra hneg
      push_neg at hneg
      have hv : ((b : ℝ)) * Real.sqrt 3 < 0 := mul_neg_of_neg_of_pos hb' hsp
      have hlt : ((a : ℝ)) < -((b : ℝ) * Real.sqrt 3) := by linarith
      have h1 : ((a : ℝ)) * a < (-((b : ℝ) * Real.sqrt 3)) * (-((b : ℝ) * Real.sqrt 3)) :=
        mul_self_lt_mul_self ha' hlt
      nlinarith [h1, hs]
  · intro h
    rcases le_or_lt 0 b with hb | hb
    · rcases le_or_lt 0 a with ha | ha
      · exact Or.inl ⟨hb, Or.inl ha⟩
      · refine Or.inl ⟨hb, Or.inr ?_⟩
        have hb' : (0:ℝ) ≤ (b : ℝ) := by exact_mod_cast hb
        have ha' : ((a : ℝ)) < 0 := by exact_mod_cast ha
        have hle : -((a : ℝ)) ≤ (b : ℝ) * Real.sqrt 3 := by linarith
        have h1 : (-((a : ℝ))) * (-((a : ℝ))) ≤ ((b : ℝ) * Real.sqrt 3) * ((b : ℝ) * Real.sqrt 3) :=
          mul_self_le_mul_self (by linarith) hle
        have : ((a : ℝ)) * a ≤ 3 * ((b : ℝ) * b) := by nlinarith [h1, hs]
        exact_mod_cast this
    · have hb' : ((b : ℝ)) < 0 := by exact_mod_cast hb
      have hbs : (b : ℝ) * Real.sqrt 3 < 0 := mul_neg_of_neg_of_pos hb' hsp
      have ha' : (0:ℝ) < (a : ℝ) := by linarith
      refine Or.inr ⟨hb, by exact_mod_cast ha'.le, ?_⟩
      have hle : -((b : ℝ) * Real.sqrt 3) ≤ (a : ℝ) := by linarith
      have h1 : (-((b : ℝ) * Real.sqrt 3)) * (-((b : ℝ) * Real.sqrt 3)) ≤ (a : ℝ) * a :=
        mul_self_le_mul_self (by linarith) hle
      have : 3 * ((b : ℝ) * b) ≤ (a : ℝ) * a := by nlinarith [h1, hs]
      exact_mod_cast this

theorem knonneg_iff (x : K) : knonneg x ↔ 0 ≤ toReal x := by
  rw [knonneg, intNonneg_iff, toReal]
  constructor
  · intro h
    exact div_nonneg h (kD_pos x).le
  · intro h
    by_contra hneg
    push_neg at hneg
    have := div_neg_of_neg_of_pos hneg (kD_pos x)
    linarith

theorem kle_iff (x y : K) : x ≤ y ↔ toReal x ≤ toReal y := by
  show knonneg (y - x) ↔ _
  rw [knonneg_iff, toReal_sub]
  constructor
  · intro h; linarith
  · intro h; linarith

theorem klt_iff (x y : K) : x < y ↔ toReal x < toReal y := by
  show ¬ knonneg (x - y) ↔ _
  rw [knonneg_iff, toReal_sub]
  constructor
  · intro h
    by_contra hc
    push_neg at hc
    exact h (by linarith)
  · intro h hc
    linarith

theorem keq_iff (x y : K) : keq x y ↔ toReal x = toReal y := by
  rw [keq, kle_iff, kle_iff]
  constructor
  · rintro ⟨h1, h2⟩; linarith
  · intro h; exact ⟨le_of_eq h, le_of_eq h.symm⟩

/-- Fuel-driven integer square root (structural recursion, so that concrete
instances reduce inside the kernel). -/
def isqrtAux (n : ℕ) : ℕ → ℕ → ℕ
  | 0, k => k
  | fuel + 1, k => if (k + 1) * (k + 1) ≤ n then isqrtAux n fuel (k + 1) else k

def isqrt (n : ℕ) : ℕ := isqrtAux n n 0

theorem isqrtAux_spec (n : ℕ) : ∀ fuel k, k * k ≤ n → n ≤ k + fuel →
    isqrtAux n fuel k * isqrtAux n fuel k ≤ n ∧
      n < (isqrtAux n fuel k + 1) * (isqrtAux n fuel k + 1) := by
  intro fuel
  induction fuel with
  | zero =>
    intro k hk hn
    simp only [isqrtAux]
    refine ⟨hk, ?_⟩
    nlinarith
  | succ f ih =>
    intro k hk hn
    simp only [isqrtAux]
    split
    · next h => exact ih (k + 1) h (by omega)
    · next h => exact ⟨hk, by omega⟩

theorem isqrt_spec (n : ℕ) :
    isqrt n * isqrt n ≤ n ∧ n < (isqrt n + 1) * (isqrt n + 1) :=
  isqrtAux_spec n n 0 (by simp) (by omega)

/-- Floor of an element of `K`, computed with integer arithmetic only. -/
def floorK (x : K) : ℤ :=
  let s : ℤ := (isqrt ((3 * (x.B * x.B)).toNat) : ℕ)
  let t : ℤ := if 0 ≤ x.B then s else -s - 1
  (x.A + t) / x.D

theorem intMulSqrt3_bounds (B t : ℤ)
    (ht : t = if 0 ≤ B then ((isqrt ((3 * (B * B)).toNat) : ℕ) : ℤ)
      else -((isqrt ((3 * (B * B)).toNat) : ℕ) : ℤ) - 1) :
    ((t : ℤ) : ℝ) ≤ (B : ℝ) * Real.sqrt 3 ∧ (B : ℝ) * Real.sqrt 3 < (t : ℝ) + 1 := by
  have hs := sqrt3_mul_self
  have hs0 := sqrt3_nonneg
  set N : ℕ := (3 * (B * B)).toNat with hN
  have hNval : ((N : ℤ)) = 3 * (B * B) := Int.toNat_of_nonneg (by nlinarith [mul_self_nonneg B])
  have hspec := isqrt_spec N
  set s : ℕ := isqrt N with hsdef
  have hlow : ((s : ℝ)) * s ≤ 3 * ((B : ℝ) * B) := by
    have h1 : ((s * s : ℕ) : ℤ) ≤ (N : ℤ) := by exact_mod_cast hspec.1
    rw [hNval] at h1
    exact_mod_cast h1
  have hhigh : 3 * ((B : ℝ) * B) < ((s : ℝ) + 1) * ((s : ℝ) + 1) := by
    have h1 : (N : ℤ) < (((s + 1) * (s + 1) : ℕ) : ℤ) := by exact_mod_cast hspec.2
    rw [hNval] at h1
    exact_mod_cast h1
  have hBsq : ((B : ℝ) * Real.sqrt 3) * ((B : ℝ) * Real.sqrt 3) = 3 * ((B : ℝ) * B) := by
    nlinarith [hs]
  by_cases hB : 0 ≤ B
  · rw [ht, if_pos hB]
    have hB' : (0:ℝ) ≤ (B : ℝ) := by exact_mod_cast hB
    have hv : (0:ℝ) ≤ (B : ℝ) * Real.sqrt 3 := mul_nonneg hB' hs0
    constructor
    · push_cast
      by_contra hc
      push_neg at hc
      have : ((B : ℝ) * Real.sqrt 3) * ((B : ℝ) * Real.sqrt 3) < ((s : ℝ)) * s :=
        mul_self_lt_mul_self hv hc
      nlinarith [hBsq]
    · push_cast
      by_contra hc
      push_neg at hc
      have : ((s : ℝ) + 1) * ((s : ℝ) + 1) ≤ ((B : ℝ) * Real.sqrt 3) * ((B : ℝ) * Real.sqrt 3) :=
        mul_self_le_mul_self (by positivity) hc
      nlinarith [hBsq]
  · rw [ht, if_neg hB]
    push_neg at hB
    have hB' : ((B : ℝ)) < 0 := by exact_mod_cast hB
    have hC : (0:ℝ) < -(B : ℝ) := by linarith
    have hv : (0:ℝ) < (-(B : ℝ)) * Real.sqrt 3 := mul_pos hC sqrt3_pos
    have hCs : ((s : ℝ)) ≤ (-(B : ℝ)) * Real.sqrt 3 := by
      by_contra hc
      push_neg at hc
      have : ((-(B : ℝ)) * Real.sqrt 3) * ((-(B : ℝ)) * Real.sqrt 3) < ((s : ℝ)) * s :=
        mul_self_lt_mul_self hv.le hc
      nlinarith [hBsq]
    have hCne : ((s : ℝ)) ≠ (-(B : ℝ)) * Real.sqrt 3 := by
      intro hEq
      have hB0 : (B : ℝ) ≠ 0 := by linarith
      have hq1 : Real.sqrt 3 = ((s : ℝ)) / (-(B : ℝ)) := by
        rw [eq_div_iff (by linarith : -(B : ℝ) ≠ 0)]
        linarith [hEq]
      have hq2 : Real.sqrt 3 = (((s : ℤ) : ℚ) / ((-B : ℤ) : ℚ) : ℚ) := by
        rw [hq1]
        push_cast
        ring
      exact irrational_sqrt3 ⟨_, hq2.symm⟩
    have hCstrict : ((s : ℝ)) < (-(B : ℝ)) * Real.sqrt 3 := lt_of_le_of_ne hCs hCne
    have hCupper : (-(B : ℝ)) * Real.sqrt 3 < ((s : ℝ) + 1) := by
      by_contra hc
      push_neg at hc
      have : ((s : ℝ) + 1) * ((s : ℝ) + 1) ≤ ((-(B : ℝ)) * Real.sqrt 3) * ((-(B : ℝ)) * Real.sqrt 3) :=
        mul_self_le_mul_self (by positivity) hc
      nlinarith [hBsq]
    constructor
    · push_cast
      nlinarith [hCupper]
    · push_cast
      nlinarith [hCstrict]

theorem floorK_bounds (x : K) :
    ((floorK x : ℤ) : ℝ) ≤ toReal x ∧ toReal x < (floorK x : ℤ) + 1 := by
  set t : ℤ := (if 0 ≤ x.B then ((isqrt ((3 * (x.B * x.B)).toNat) : ℕ) : ℤ)
      else -((isqrt ((3 * (x.B * x.B)).toNat) : ℕ) : ℤ) - 1) with ht
  obtain ⟨htl, hth⟩ := intMulSqrt3_bounds x.B t ht
  have hq : floorK x = (x.A + t) / x.D := rfl
  have hdm := Int.ediv_add_emod (x.A + t) x.D
  have hr0 : 0 ≤ (x.A + t) % x.D := Int.emod_nonneg _ (ne_of_gt x.dpos)
  have hrD : (x.A + t) % x.D < x.D := Int.emod_lt_of_pos _ x.dpos
  set q : ℤ := (x.A + t) / x.D with hqd
  set r : ℤ := (x.A + t) % x.D with hrd
  have hkey : x.D * q + r = x.A + t := hdm
  have hD := kD_pos x
  constructor
  · rw [hq, toReal]
    rw [le_div_iff₀ hD]
    have h1 : ((q : ℝ)) * x.D ≤ (x.A : ℝ) + t := by
      have h2 : ((x.D : ℝ)) * q + r = (x.A : ℝ) + t := by exact_mod_cast hkey
      have hr0' : (0:ℝ) ≤ (r : ℝ) := by exact_mod_cast hr0
      linarith
    linarith [htl]
  · rw [hq, toReal]
    rw [div_lt_iff₀ hD]
    have h1 : (x.A : ℝ) + t + 1 ≤ ((q : ℝ) + 1) * x.D := by
      have h2 : ((x.D : ℝ)) * q + r = (x.A : ℝ) + t := by exact_mod_cast hkey
      have hrD' : (r : ℝ) + 1 ≤ (x.D : ℝ) := by exact_mod_cast hrD
      nlinarith
    linarith [hth]

/-- One half, as an element of `K`. -/
def khalf : K := ⟨1, 0, 2, by decide⟩

theorem toReal_khalf : toReal khalf = 1 / 2 := by
  show (((1 : ℤ) : ℝ) + ((0 : ℤ) : ℝ) * Real.sqrt 3) / ((2 : ℤ) : ℝ) = 1 / 2
  norm_num

/-- Embedding of numpy `np.round` (round half to even) on `K`.  A tie can only
happen at a rational half-integer, which the integer test below recognizes
exactly; every other value rounds to `floor (x + 1/2)`. -/
def npRound (x : K) : ℤ :=
  if x.B = 0 ∧ 2 * x.A = x.D * (2 * floorK x + 1) then
    (if floorK x % 2 = 0 then floorK x else floorK x + 1)
  else floorK (x + khalf)

theorem npRound_dist (x : K) : |toReal x - npRound x| ≤ 1 / 2 := by
  unfold npRound
  split
  · next h =>
    obtain ⟨hb, ha⟩ := h
    have hx : toReal x = (floorK x : ℝ) + 1 / 2 := by
      rw [toReal, hb]
      have hD := kD_pos x
      have ha' : (2 : ℝ) * x.A = (x.D : ℝ) * (2 * (floorK x : ℝ) + 1) := by
        exact_mod_cast ha
      push_cast
      rw [div_eq_iff (ne_of_gt hD)]
      linarith
    split
    · rw [hx]
      rw [abs_le]
      constructor <;> norm_num
    · rw [hx]
      push_cast
      rw [abs_le]
      constructor <;> [linarith; linarith]
  · next h =>
    obtain ⟨hl, hh⟩ := floorK_bounds (x + khalf)
    rw [toReal_add, toReal_khalf] at hl hh
    rw [abs_le]
    constructor <;> [linarith; linarith]

theorem npRound_eq_of_close (x : K) (n : ℤ) (h : |toReal x - n| ≤ 49 / 100) :
    npRound x = n := by
  have hd := npRound_dist x
  have h1 : |((npRound x : ℤ) : ℝ) - n| ≤ 99 / 100 := by
    have := abs_sub_le ((npRound x : ℤ) : ℝ) (toReal x) ((n : ℤ) : ℝ)
    rw [abs_sub_comm ((npRound x : ℤ) : ℝ) (toReal x)] at this
    linarith
  have h2 : |((npRound x - n : ℤ) : ℝ)| ≤ 99 / 100 := by
    push_cast
    exact h1
  have h3 : (|npRound x - n| : ℤ) ≤ 0 := by
    by_contra hc
    push_neg at hc
    have : (1 : ℝ) ≤ |((npRound x - n : ℤ) : ℝ)| := by
      rw [← Int.cast_abs]
      exact_mod_cast hc
    linarith
  have h4 : npRound x - n = 0 := abs_nonpos_iff.mp h3
  omega

theorem npRound_intCast (n : ℤ) : npRound (n : K) = n :=
  npRound_eq_of_close _ n (by rw [toReal_intCast]; norm_num)

/-- Embedding of `np.sign`. -/
def ksign (x : K) : K := if (0 : K) < x then 1 else if x < (0 : K) then -1 else 0

/-- Absolute value on `K` (used for the epsilon gates of the kinematics). -/
def kabs (x : K) : K := if knonneg x then x else -x

theorem toReal_kabs (x : K) : toReal (kabs x) = |toReal x| := by
  unfold kabs
  split
  · next h => rw [abs_of_nonneg ((knonneg_iff x).mp h)]
  · next h =>
    rw [toReal_neg, abs_of_neg]
    by_contra hc
    push_neg at hc
    exact h ((knonneg_iff x).mpr hc)

theorem ksign_of_pos (x : K) (h : 0 < toReal x) : ksign x = 1 := by
  unfold ksign
  rw [if_pos]
  rw [klt_iff, toReal_zero]
  exact h

theorem ksign_of_neg (x : K) (h : toReal x < 0) : ksign x = -1 := by
  unfold ksign
  rw [if_neg, if_pos]
  · rw [klt_iff, toReal_zero]; exact h
  · rw [klt_iff, toReal_zero]; push_neg; exact h.le

/-!
### Map store

Embeds the map handling of `MinibotEnv.__init__` (character normalization and
derived bit maps), `_rc_to_xy`, `_xy_to_rc` and `_tile_type_at_pos`.
Maps are grids of characters exactly as in the source; the source performs no
validation, so neither does the embedding.
-/

/-- Per-character normalization done at map load (uppercase the row, then
`. `/space to F, X/# to W, O to H; all other characters are left alone). -/
def normChar (c : Char) : Char :=
  let u := c.toUpper
  if u = '.' ∨ u = ' ' then 'F'
  else if u = 'X' ∨ u = '#' then 'W'
  else if u = 'O' then 'H'
  else u

def normalizeMap (raw : List (List Char)) : List (List Char) :=
  raw.map (fun row => row.map normChar)

/-- Derived binary obstacle grid: 1 exactly on W and H cells. -/
def mkBitMap (m : List (List Char)) : List (List ℤ) :=
  m.map (fun row => row.map (fun ch => if ch = 'W' ∨ ch = 'H' then (1 : ℤ) else 0))

/-- `_rc_to_xy`: world coordinates `[c, rows - r - 1]` of a (row, column). -/
def rcToXy (rows : ℕ) (rc : ℤ × ℤ) : K × K :=
  (((rc.2 : ℤ) : K), (((rows : ℤ) - rc.1 - 1 : ℤ) : K))

/-- `_xy_to_rc`: round the position to the nearest tile, then
`[rows - y - 1, x]`. -/
def xyToRc (rows : ℕ) (p : K × K) : ℤ × ℤ :=
  ((rows : ℤ) - npRound p.2 - 1, npRound p.1)

/-- Common body of `_tile_type_at_pos`: round the position, convert to
row/column, and return the sentinel when the indices fall outside the grid. -/
def tileAt {α : Type} (m : List (List α)) (sentinel : α) (p : K × K) : α :=
  let rows := m.length
  let cols := (m.headD []).length
  let x : ℤ := npRound p.1
  let y : ℤ := npRound p.2
  let rc := xyToRc rows (((x : ℤ) : K), ((y : ℤ) : K))
  if rc.1 < 0 ∨ rc.2 < 0 ∨ (rows : ℤ) ≤ rc.1 ∨ (cols : ℤ) ≤ rc.2 then sentinel
  else (m.getD rc.1.toNat []).getD rc.2.toNat sentinel

/-- `_tile_type_at_pos` with `bitmap=False`: character map, sentinel W. -/
def tileTypeAtPos (m : List (List Char)) (p : K × K) : Char := tileAt m 'W' p

/-- `_tile_type_at_pos` with `bitmap=True`: bit map, sentinel 1. -/
def tileBitAtPos (bm : List (List ℤ)) (p : K × K) : ℤ := tileAt bm 1 p

/-- Index-level version of the lookup (both rounds already applied). -/
def tileAtIdx {α : Type} (m : List (List α)) (sentinel : α) (x y : ℤ) : α :=
  let rows := m.length
  let cols := (m.headD []).length
  let r := (rows : ℤ) - y - 1
  if r < 0 ∨ x < 0 ∨ (rows : ℤ) ≤ r ∨ (cols : ℤ) ≤ x then sentinel
  else (m.getD r.toNat []).getD x.toNat sentinel

theorem tileAt_eq_idx {α : Type} (m : List (List α)) (s : α) (p : K × K) :
    tileAt m s p = tileAtIdx m s (npRound p.1) (npRound p.2) := by
  unfold tileAt tileAtIdx xyToRc
  simp only [npRound_intCast]

/-!
### Sensor model (`_get_obs`)

The orientation is represented by the pair (cos, sin) of its rotation matrix
(the source builds exactly this matrix via `_rotation_matrix`).  The sample
offsets are `np.linspace(-range*res, range*res, 2*range+1)`, whose spacing is
exactly `res`; the y offsets are negated so that the observation vector is
ordered front to back.
-/

def lsList (range : ℕ) (res : K) : List K :=
  (List.range (2 * range + 1)).map (fun t => -(((range : ℕ) : K) * res) + ((t : ℕ) : K) * res)

/-- Application of the 2-D rotation matrix with entries (cos, sin) = `rot`. -/
def rotApply (rot : K × K) (v : K × K) : K × K :=
  (rot.1 * v.1 - rot.2 * v.2, rot.2 * v.1 + rot.1 * v.2)

/-- `_get_obs`: sample the bit map at the rotated and translated radar grid.
Row index j (front-to-back, negated ls) is the outer loop of the flattened
`meshgrid`, column index k the inner one. -/
def getObs (range : ℕ) (res : K) (pos : K × K) (rot : K × K) (bm : List (List ℤ)) : List ℤ :=
  (lsList range res).flatMap (fun lj =>
    (lsList range res).map (fun lk =>
      tileBitAtPos bm
        (pos.1 + (rot.1 * lk - rot.2 * (-lj)), pos.2 + (rot.2 * lk + rot.1 * (-lj)))))

theorem length_flatMap_const {α β : Type} (l : List α) (f : α → List β) (n : ℕ)
    (h : ∀ a ∈ l, (f a).length = n) : (l.flatMap f).length = l.length * n := by
  induction l with
  | nil => simp
  | cons a t ih =>
    have ha := h a (by simp)
    have ht := ih (fun x hx => h x (by simp [hx]))
    simp only [List.flatMap_cons, List.length_append, List.length_cons, ha, ht]
    ring

theorem lsList_length (range : ℕ) (res : K) : (lsList range res).length = 2 * range + 1 := by
  simp [lsList]

/-- The out-of-bounds condition of `_tile_type_at_pos` for a grid of the given
dimensions: the rounded position converts to a row/column outside the grid. -/
def oobAt (rows cols : ℕ) (p : K × K) : Prop :=
  let rc := xyToRc rows (((npRound p.1 : ℤ) : K), ((npRound p.2 : ℤ) : K))
  rc.1 < 0 ∨ rc.2 < 0 ∨ (rows : ℤ) ≤ rc.1 ∨ (cols : ℤ) ≤ rc.2

instance (rows cols : ℕ) (p : K × K) : Decidable (oobAt rows cols p) := by
  unfold oobAt; infer_instance

theorem tileAt_oob {α : Type} (m : List (List α)) (s : α) (p : K × K)
    (h : oobAt m.length (m.headD []).length p) : tileAt m s p = s := by
  simp only [oobAt] at h
  simp only [tileAt]
  exact if_pos h

/-- C5 (confirmed): converting an integer (row, column) to world coordinates
with `_rc_to_xy` and back with `_xy_to_rc` (nearest-tile rounding applied
once) returns exactly the original pair, for every position inside the map
bounds. -/
theorem rc_xy_roundtrip (rows cols : ℕ) (r c : ℤ)
    (_h1 : 0 ≤ r) (_h2 : r < rows) (_h3 : 0 ≤ c) (_h4 : c < cols) :
    xyToRc rows (rcToXy rows (r, c)) = (r, c) := by
  unfold rcToXy xyToRc
  simp only [npRound_intCast]
  have hrr : (rows : ℤ) - ((rows : ℤ) - r - 1) - 1 = r := by omega
  rw [hrr]

theorem rc_xy_roundtrip_witness :
    (0 ≤ (3:ℤ)) ∧ ((3:ℤ) < (8:ℕ)) ∧ (0 ≤ (5:ℤ)) ∧ ((5:ℤ) < (8:ℕ)) ∧
      xyToRc 8 (rcToXy 8 (3, 5)) = (3, 5) :=
  ⟨by decide, by decide, by decide, by decide,
    rc_xy_roundtrip 8 8 3 5 (by decide) (by decide) (by decide) (by decide)⟩

/-- C7 (confirmed): whenever the nearest-tile rounding of a position falls
outside the grid bounds, `_tile_type_at_pos` returns the Wall sentinel
(character W on the character map, 1 on the bit map) instead of failing;
the lookup is total by construction. -/
theorem tile_lookup_total_oob :
    (∀ (m : List (List Char)) (p : K × K), oobAt m.length (m.headD []).length p →
      tileTypeAtPos m p = 'W') ∧
    (∀ (bm : List (List ℤ)) (p : K × K), oobAt bm.length (bm.headD []).length p →
      tileBitAtPos bm p = 1) :=
  ⟨fun m p h => tileAt_oob m 'W' p h, fun bm p h => tileAt_oob bm 1 p h⟩

theorem tile_lookup_total_oob_witness :
    oobAt 1 1 ((5 : K), (0 : K)) ∧ tileTypeAtPos [['F']] ((5 : K), (0 : K)) = 'W' ∧
      tileBitAtPos [[(0 : ℤ)]] ((5 : K), (0 : K)) = 1 :=
  ⟨by decide, tile_lookup_total_oob.1 [['F']] ((5 : K), (0 : K)) (by decide),
    tile_lookup_total_oob.2 [[(0 : ℤ)]] ((5 : K), (0 : K)) (by decide)⟩

theorem getD_zero_one (l : List ℤ) (hall : ∀ v ∈ l, v = 0 ∨ v = 1) (n : ℕ) (d : ℤ)
    (hd : d = 0 ∨ d = 1) : l.getD n d = 0 ∨ l.getD n d = 1 := by
  rcases lt_or_ge n l.length with h | h
  · rw [List.getD_eq_getElem l d h]
    exact hall _ (List.getElem_mem h)
  · rw [List.getD_eq_default l d h]
    exact hd

theorem mkBitMap_rows (m : List (List Char)) (row : List ℤ) (hrow : row ∈ mkBitMap m) :
    ∀ v ∈ row, v = 0 ∨ v = 1 := by
  unfold mkBitMap at hrow
  rw [List.mem_map] at hrow
  obtain ⟨orig, _, rfl⟩ := hrow
  intro v hv
  rw [List.mem_map] at hv
  obtain ⟨ch, _, rfl⟩ := hv
  by_cases h : ch = 'W' ∨ ch = 'H'
  · rw [if_pos h]; right; rfl
  · rw [if_neg h]; left; rfl

theorem tileBit_mkBitMap (m : List (List Char)) (p : K × K) :
    tileBitAtPos (mkBitMap m) p = 0 ∨ tileBitAtPos (mkBitMap m) p = 1 := by
  unfold tileBitAtPos
  simp only [tileAt]
  split
  · right; rfl
  · set rn : ℕ := (xyToRc (mkBitMap m).length (((npRound p.1 : ℤ) : K),
        ((npRound p.2 : ℤ) : K))).1.toNat with hrn
    rcases lt_or_ge rn (mkBitMap m).length with hr | hr
    · refine getD_zero_one _ ?_ _ _ (Or.inr rfl)
      refine mkBitMap_rows m _ ?_
      rw [List.getD_eq_getElem _ _ hr]
      exact List.getElem_mem hr
    · rw [List.getD_eq_default _ _ hr]
      exact getD_zero_one [] (fun v hv => absurd hv (List.not_mem_nil v)) _ _ (Or.inr rfl)

/-- C8 amended theorem: for every pose, every map and all construction
parameters, the observation produced by `_get_obs` has `2*radar_range + 1`
samples per axis (the resolution only sets the sample spacing, not the
count), and every sample is 0 or 1. -/
theorem getObs_shape_and_values (range : ℕ) (res : K) (pos rot : K × K)
    (m : List (List Char)) :
    (getObs range res pos rot (mkBitMap m)).length = (2 * range + 1) * (2 * range + 1) ∧
    ∀ v ∈ getObs range res pos rot (mkBitMap m), v = 0 ∨ v = 1 := by
  constructor
  · unfold getObs
    rw [length_flatMap_const _ _ (2 * range + 1) (fun a _ => by simp [lsList])]
    rw [lsList_length]
  · intro v hv
    unfold getObs at hv
    rw [List.mem_flatMap] at hv
    obtain ⟨lj, _, hv⟩ := hv
    rw [List.mem_map] at hv
    obtain ⟨lk, _, rfl⟩ := hv
    exact tileBit_mkBitMap m _

theorem getObs_shape_witness :
    (getObs 2 (1 : K) ((0 : K), (0 : K)) ((1 : K), (0 : K)) (mkBitMap [['S']])).length =
        (2 * 2 + 1) * (2 * 2 + 1) ∧
      ((1 : ℤ) = 0 ∨ (1 : ℤ) = 1) :=
  ⟨(getObs_shape_and_values 2 1 ((0 : K), (0 : K)) ((1 : K), (0 : K)) [['S']]).1,
    (getObs_shape_and_values 2 1 ((0 : K), (0 : K)) ((1 : K), (0 : K)) [['S']]).2 1 (by decide)⟩

/-- C8 counterexample: with radar_range 1 and radar_resolution 2 the
observation of `_get_obs` has 9 = (2*1+1)^2 samples, while the claimed
count (2*radar_range/radar_resolution + 1)^2 = (2*1/2+1)^2 evaluates to 4. -/
theorem getObs_resolution_counterexample :
    (getObs 1 (2 : K) ((0 : K), (0 : K)) ((1 : K), (0 : K)) (mkBitMap [['F']])).length = 9 ∧
    ¬ keq ((9 : K)) ((2 * 1 / 2 + 1) * (2 * 1 / 2 + 1) : K) := by
  constructor
  · decide
  · decide

theorem toReal_kinv (x : K) (hx : toReal x ≠ 0) : toReal (kinv x) = (toReal x)⁻¹ := by
  have hnum : ((x.A : ℝ)) + x.B * Real.sqrt 3 ≠ 0 := by
    intro h0
    exact hx (by rw [toReal, h0, zero_div])
  have hc : x.A * x.A - 3 * (x.B * x.B) ≠ 0 := by
    intro hc0
    by_cases hB : x.B = 0
    · have hA : x.A = 0 := by
        rw [hB] at hc0
        nlinarith [hc0]
      rw [hA, hB] at hnum
      simp at hnum
    · have hsq : ((x.A : ℝ))^2 = 3 * ((x.B : ℝ))^2 := by
        have : (x.A * x.A : ℤ) = 3 * (x.B * x.B) := by omega
        have h2 : ((x.A * x.A : ℤ) : ℝ) = ((3 * (x.B * x.B) : ℤ) : ℝ) := by exact_mod_cast this
        push_cast at h2
        nlinarith [h2]
      have habs : |((x.A : ℝ))| = Real.sqrt 3 * |((x.B : ℝ))| := by
        rw [← Real.sqrt_sq_eq_abs, ← Real.sqrt_sq_eq_abs, hsq,
          Real.sqrt_mul (by norm_num : (0:ℝ) ≤ 3)]
      have hBne : ((x.B : ℝ)) ≠ 0 := by exact_mod_cast hB
      have hBabs : |((x.B : ℝ))| ≠ 0 := abs_ne_zero.mpr hBne
      have hrat : Real.sqrt 3 = ((x.A.natAbs : ℚ) / (x.B.natAbs : ℚ) : ℚ) := by
        push_cast
        rw [Int.cast_natAbs, Int.cast_natAbs]
        push_cast
        rw [eq_div_iff hBabs]
        linarith [habs]
      exact irrational_sqrt3 ⟨_, hrat.symm⟩
  have hcr : ((x.A * x.A - 3 * (x.B * x.B) : ℤ) : ℝ) ≠ 0 := by exact_mod_cast hc
  have key : toReal (kinv x) * toReal x = 1 := by
    simp only [kinv]
    split
    · next h =>
      rw [toReal, toReal, div_mul_div_comm, div_eq_one_iff_eq (mul_ne_zero hcr (kD_ne x))]
      push_cast
      linear_combination (-((x.D : ℝ) * (x.B : ℝ) * (x.B : ℝ))) * sqrt3_mul_self
    · next h =>
      split
      · next h2 =>
        have hcr2 : ((-(x.A * x.A - 3 * (x.B * x.B)) : ℤ) : ℝ) ≠ 0 := by
          intro h0
          apply hcr
          push_cast at h0 ⊢
          linarith
        rw [toReal, toReal, div_mul_div_comm, div_eq_one_iff_eq (mul_ne_zero hcr2 (kD_ne x))]
        push_cast
        linear_combination ((x.D : ℝ) * (x.B : ℝ) * (x.B : ℝ)) * sqrt3_mul_self
      · next h2 =>
        exfalso
        omega
  have := eq_inv_of_mul_eq_one_left key
  exact this

theorem toReal_div (x y : K) (hy : toReal y ≠ 0) :
    toReal (x / y) = toReal x / toReal y := by
  show toReal (x * kinv y) = _
  rw [toReal_mul, toReal_kinv y hy, div_eq_mul_inv]

/-!
### Kinematics engine (`_get_raw_move`)

The source rotates with `_rotation_matrix` applied to the current heading and
(in the arc branch) to the computed turn angle.  The embedding abstracts
`_rotation_matrix` as a parameter `rotf` mapping an angle to the (cos, sin)
pair of its rotation matrix; the theorems below hold for every such function,
and concrete instances use the exact value of the matrix at the angles that
actually occur.  All other quantities (wheel geometry `w`, `maxDist`, the
epsilon gate and the motor powers) are explicit arguments as in the spec.
-/

def getRawMove (rotf : K → K × K) (w maxDist eps : K) (ori : K) (action : K × K) :
    (K × K) × K :=
  let al := action.1 * maxDist
  let ar := action.2 * maxDist
  if kabs (al - ar) < eps then
    (rotApply (rotf ori) ((0 : K), al), 0)
  else if kabs (al + ar) < eps then
    (rotApply (rotf ori) ((0 : K), (0 : K)), ar * 2 / w)
  else
    let r := (w * (ar + al)) / (2 * (ar - al))
    let alpha := (ar + al) / (2 * r)
    let rotCenter : K × K := (-r, (0 : K))
    let me1 : K × K := ((0 : K) - rotCenter.1, (0 : K) - rotCenter.2)
    let me2 := rotApply (rotf alpha) me1
    let me3 : K × K := (me2.1 + rotCenter.1, me2.2 + rotCenter.2)
    (rotApply (rotf ori) me3, alpha)

/-- C4 counterexample: the motor pair (left, right) = (-1/5000, 1/5000) has
left = -right and left nonzero, but |al - ar| = 0.00008 < EPSILON = 0.0001,
so `_get_raw_move` takes the straight-line branch: the heading delta is 0
(the claim demands it be nonzero) and the displacement is a nonzero straight
step (the claim demands zero displacement).  The rotation function used is
the exact rotation matrix at heading 0, the only angle evaluated. -/
theorem rawMove_epsilon_counterexample :
    ¬ keq (⟨-1, 0, 5000, by decide⟩ : K) 0 ∧
    keq (⟨-1, 0, 5000, by decide⟩ : K) (-(⟨1, 0, 5000, by decide⟩ : K)) ∧
    keq (getRawMove (fun _ => ((1 : K), (0 : K))) 1 (⟨1, 0, 5, by decide⟩)
        (⟨1, 0, 10000, by decide⟩) 0
        ((⟨-1, 0, 5000, by decide⟩ : K), (⟨1, 0, 5000, by decide⟩ : K))).2 0 ∧
    ¬ keq ((getRawMove (fun _ => ((1 : K), (0 : K))) 1 (⟨1, 0, 5, by decide⟩)
        (⟨1, 0, 10000, by decide⟩) 0
        ((⟨-1, 0, 5000, by decide⟩ : K), (⟨1, 0, 5000, by decide⟩ : K))).1.2) 0 := by
  refine ⟨by decide, by decide, by decide, by decide⟩

/-- C4 amended theorem: for every motor pair with left = -right whose scaled
differential 2*left*maxDist clears the epsilon gate (|2*left*maxDist| ≥ eps),
`_get_raw_move` takes the rotate-in-place branch and returns a displacement
that is (semantically) the zero vector together with the nonzero heading
delta ar*2/w, where ar = right*maxDist = -left*maxDist. -/
theorem rawMove_pure_rotation (rotf : K → K × K) (w maxDist eps : K) (ori : K) (l : K)
    (hw : 0 < toReal w) (heps : 0 < toReal eps)
    (hl : toReal eps ≤ |2 * (toReal l * toReal maxDist)|) :
    keq (getRawMove rotf w maxDist eps ori (l, -l)).1.1 0 ∧
    keq (getRawMove rotf w maxDist eps ori (l, -l)).1.2 0 ∧
    (getRawMove rotf w maxDist eps ori (l, -l)).2 = (-l) * maxDist * 2 / w ∧
    toReal ((getRawMove rotf w maxDist eps ori (l, -l)).2) ≠ 0 := by
  have hlm : toReal l * toReal maxDist ≠ 0 := by
    intro h0
    rw [h0] at hl
    simp at hl
    linarith
  have hb1 : ¬ (kabs ((l, -l).1 * maxDist - (l, -l).2 * maxDist) < eps) := by
    rw [klt_iff, toReal_kabs, toReal_sub, toReal_mul, toReal_mul, toReal_neg]
    push_neg
    have harg : toReal l * toReal maxDist - -toReal l * toReal maxDist =
        2 * (toReal l * toReal maxDist) := by ring
    rw [harg]
    exact hl
  have hb2 : kabs ((l, -l).1 * maxDist + (l, -l).2 * maxDist) < eps := by
    rw [klt_iff, toReal_kabs, toReal_add, toReal_mul, toReal_mul, toReal_neg]
    have : toReal l * toReal maxDist + -toReal l * toReal maxDist = 0 := by ring
    rw [this, abs_zero]
    exact heps
  have hres : getRawMove rotf w maxDist eps ori (l, -l) =
      (rotApply (rotf ori) ((0 : K), (0 : K)), (-l) * maxDist * 2 / w) := by
    unfold getRawMove
    rw [if_neg hb1, if_pos hb2]
  rw [hres]
  clear hb1 hb2 hres
  refine ⟨?_, ?_, rfl, ?_⟩
  · rw [keq_iff]
    show toReal ((rotf ori).1 * 0 - (rotf ori).2 * 0) = toReal 0
    rw [toReal_sub, toReal_mul, toReal_mul, toReal_zero]
    ring
  · rw [keq_iff]
    show toReal ((rotf ori).2 * 0 + (rotf ori).1 * 0) = toReal 0
    rw [toReal_add, toReal_mul, toReal_mul, toReal_zero]
    ring
  · rw [toReal_div _ _ (ne_of_gt hw), toReal_mul, toReal_mul, toReal_neg,
      toReal_ofNat]
    apply div_ne_zero
    · intro h0
      apply hlm
      nlinarith [h0]
    · linarith

theorem rawMove_pure_rotation_witness :
    (0 < toReal (1 : K)) ∧ (0 < toReal (⟨1, 0, 10000, by decide⟩ : K)) ∧
    (toReal (⟨1, 0, 10000, by decide⟩ : K) ≤
      |2 * (toReal (1 : K) * toReal (⟨1, 0, 5, by decide⟩ : K))|) ∧
    (keq (getRawMove (fun _ => ((1 : K), (0 : K))) 1 (⟨1, 0, 5, by decide⟩)
        (⟨1, 0, 10000, by decide⟩) 0 ((1 : K), -(1 : K))).1.1 0 ∧
     keq (getRawMove (fun _ => ((1 : K), (0 : K))) 1 (⟨1, 0, 5, by decide⟩)
        (⟨1, 0, 10000, by decide⟩) 0 ((1 : K), -(1 : K))).1.2 0 ∧
     (getRawMove (fun _ => ((1 : K), (0 : K))) 1 (⟨1, 0, 5, by decide⟩)
        (⟨1, 0, 10000, by decide⟩) 0 ((1 : K), -(1 : K))).2 =
        (-(1 : K)) * (⟨1, 0, 5, by decide⟩ : K) * 2 / 1 ∧
     toReal ((getRawMove (fun _ => ((1 : K), (0 : K))) 1 (⟨1, 0, 5, by decide⟩)
        (⟨1, 0, 10000, by decide⟩) 0 ((1 : K), -(1 : K))).2) ≠ 0) := by
  have h1 : 0 < toReal (1 : K) := by rw [toReal_one]; norm_num
  have h2 : 0 < toReal (⟨1, 0, 10000, by decide⟩ : K) := by
    show (0:ℝ) < (((1 : ℤ) : ℝ) + ((0 : ℤ) : ℝ) * Real.sqrt 3) / ((10000 : ℤ) : ℝ)
    norm_num
  have h3 : toReal (⟨1, 0, 10000, by decide⟩ : K) ≤
      |2 * (toReal (1 : K) * toReal (⟨1, 0, 5, by decide⟩ : K))| := by
    rw [toReal_one]
    show (((1 : ℤ) : ℝ) + ((0 : ℤ) : ℝ) * Real.sqrt 3) / ((10000 : ℤ) : ℝ) ≤
      |2 * (1 * ((((1 : ℤ) : ℝ) + ((0 : ℤ) : ℝ) * Real.sqrt 3) / ((5 : ℤ) : ℝ)))|
    rw [abs_of_nonneg (by norm_num)]
    norm_num
  exact ⟨h1, h2, h3,
    rawMove_pure_rotation (fun _ => ((1 : K), (0 : K))) 1 (⟨1, 0, 5, by decide⟩)
      (⟨1, 0, 10000, by decide⟩) 0 (1 : K) h1 h2 h3⟩

theorem floorK_congr (x y : K) (h : toReal x = toReal y) : floorK x = floorK y := by
  obtain ⟨h1, h2⟩ := floorK_bounds x
  obtain ⟨h3, h4⟩ := floorK_bounds y
  rw [h] at h1 h2
  have e1 : ((floorK x : ℤ) : ℝ) < ((floorK y : ℤ) : ℝ) + 1 := lt_of_le_of_lt h1 h4
  have e2 : ((floorK y : ℤ) : ℝ) < ((floorK x : ℤ) : ℝ) + 1 := lt_of_le_of_lt h3 h2
  have e3 : floorK x < floorK y + 1 := by exact_mod_cast e1
  have e4 : floorK y < floorK x + 1 := by exact_mod_cast e2
  omega

theorem npTie_iff (x : K) :
    (x.B = 0 ∧ 2 * x.A = x.D * (2 * floorK x + 1)) ↔
      toReal x = (floorK x : ℝ) + 1 / 2 := by
  have hD := kD_pos x
  constructor
  · rintro ⟨hb, ha⟩
    rw [toReal, hb]
    have ha' : (2:ℝ) * x.A = (x.D : ℝ) * (2 * (floorK x : ℝ) + 1) := by exact_mod_cast ha
    push_cast
    rw [div_eq_iff (ne_of_gt hD)]
    linarith
  · intro h
    have h2 : (x.A : ℝ) + x.B * Real.sqrt 3 = ((floorK x : ℝ) + 1/2) * x.D := by
      rw [toReal] at h
      rw [div_eq_iff (ne_of_gt hD)] at h
      exact h
    have hb : x.B = 0 := by
      by_contra hb
      have hBne : ((x.B : ℝ)) ≠ 0 := by exact_mod_cast hb
      have hB2 : (2:ℝ) * x.B ≠ 0 := by
        intro h0
        exact hBne (by linarith)
      have hrt : Real.sqrt 3 =
          ((x.D : ℝ) * (2 * (floorK x : ℝ) + 1) - 2 * x.A) / (2 * x.B) := by
        rw [eq_div_iff hB2]
        linarith [h2]
      have hq : Real.sqrt 3 =
          (((x.D * (2 * floorK x + 1) - 2 * x.A : ℤ) : ℚ) / ((2 * x.B : ℤ) : ℚ) : ℚ) := by
        rw [hrt]
        push_cast
        ring
      exact irrational_sqrt3 ⟨_, hq.symm⟩
    refine ⟨hb, ?_⟩
    rw [hb] at h2
    push_cast at h2
    have : (2 * x.A : ℝ) = ((x.D : ℝ)) * (2 * (floorK x : ℝ) + 1) := by linarith
    exact_mod_cast this

theorem npRound_congr (x y : K) (h : toReal x = toReal y) : npRound x = npRound y := by
  have hf : floorK x = floorK y := floorK_congr x y h
  unfold npRound
  by_cases ht : toReal x = (floorK x : ℝ) + 1 / 2
  · have htx := (npTie_iff x).mpr ht
    have hty := (npTie_iff y).mpr (by rw [← h, ← hf]; exact ht)
    rw [if_pos htx, if_pos hty, hf]
  · have htx : ¬ (x.B = 0 ∧ 2 * x.A = x.D * (2 * floorK x + 1)) := fun hc =>
      ht ((npTie_iff x).mp hc)
    have hty : ¬ (y.B = 0 ∧ 2 * y.A = y.D * (2 * floorK y + 1)) := fun hc =>
      ht (by rw [h, hf]; exact (npTie_iff y).mp hc)
    rw [if_neg htx, if_neg hty]
    exact floorK_congr _ _ (by rw [toReal_add, toReal_add, h])

/-- The 0.01 near-wall offset of the collision resolver. -/
def centiK : K := ⟨1, 0, 100, by decide⟩

theorem toReal_centiK : toReal centiK = 1 / 100 := by
  show (((1 : ℤ) : ℝ) + ((0 : ℤ) : ℝ) * Real.sqrt 3) / ((100 : ℤ) : ℝ) = 1 / 100
  norm_num

/-- 0.2, the per-step travel bound `max_action_distance`. -/
def fifthK : K := ⟨1, 0, 5, by decide⟩

theorem toReal_fifthK : toReal fifthK = 1 / 5 := by
  show (((1 : ℤ) : ℝ) + ((0 : ℤ) : ℝ) * Real.sqrt 3) / ((5 : ℤ) : ℝ) = 1 / 5
  norm_num

/-!
### Collision resolver (`_get_new_position`)

`resolve` is the collision logic of `_get_new_position` with the raw move
(displacement and heading change) already computed; `getNewPosition` composes
it with the kinematics, as in the source.  The heading `ori1 = ori0 + dori`
is computed up front and returned unchanged on every branch.
-/

def resolve (m : List (List Char)) (pos0 : K × K) (mv : K × K) (ori0 dori : K) :
    (K × K) × K :=
  let pos1 : K × K := (pos0.1 + mv.1, pos0.2 + mv.2)
  let ori1 : K := ori0 + dori
  let t0x : ℤ := npRound pos0.1
  let t0y : ℤ := npRound pos0.2
  let t1x : ℤ := npRound pos1.1
  let t1y : ℤ := npRound pos1.2
  if tileTypeAtPos m pos1 ≠ 'W' then (pos1, ori1)
  else
    let midX : K := (((t0x : ℤ) : K) + ((t1x : ℤ) : K)) / 2
    let midY : K := (((t0y : ℤ) : K) + ((t1y : ℤ) : K)) / 2
    let nearWallX : K := midX - ksign mv.1 * centiK
    let nearWallY : K := midY - ksign mv.2 * centiK
    if t0x ≠ t1x ∧ t0y = t1y then ((nearWallX, pos1.2), ori1)
    else if t0y ≠ t1y ∧ t0x = t1x then ((pos1.1, nearWallY), ori1)
    else
      if tileTypeAtPos m (((t1x : ℤ) : K), ((t0y : ℤ) : K)) ≠ 'W' ∧
         tileTypeAtPos m (((t0x : ℤ) : K), ((t1y : ℤ) : K)) ≠ 'W' then
        let tx : K := (midX - pos0.1) / (pos1.1 - pos0.1)
        let ty : K := (midY - pos0.2) / (pos1.2 - pos0.2)
        if tx < ty then ((pos1.1, nearWallY), ori1)
        else ((nearWallX, pos1.2), ori1)
      else
        ((if tileTypeAtPos m (((t1x : ℤ) : K), ((t0y : ℤ) : K)) = 'W' then nearWallX else pos1.1,
          if tileTypeAtPos m (((t0x : ℤ) : K), ((t1y : ℤ) : K)) = 'W' then nearWallY else pos1.2),
         ori1)

def getNewPosition (rotf : K → K × K) (w maxDist eps : K) (m : List (List Char))
    (pos0 : K × K) (ori0 : K) (action : K × K) : (K × K) × K :=
  let rm := getRawMove rotf w maxDist eps ori0 action
  resolve m pos0 rm.1 ori0 rm.2

theorem resolve_ori (m : List (List Char)) (pos0 mv : K × K) (ori0 dori : K) :
    (resolve m pos0 mv ori0 dori).2 = ori0 + dori := by
  simp only [resolve]
  split
  · rfl
  · split
    · rfl
    · split
      · rfl
      · split
        · split
          · rfl
          · rfl
        · rfl

/-- C9 (confirmed): on every branch of the collision logic the orientation
returned by `_get_new_position` is the pre-motion orientation plus the
heading delta computed by `_get_raw_move`; collisions clamp only the
position, never the heading. -/
theorem collision_preserves_heading (rotf : K → K × K) (w maxDist eps : K)
    (m : List (List Char)) (pos0 : K × K) (ori0 : K) (action : K × K) :
    (getNewPosition rotf w maxDist eps m pos0 ori0 action).2 =
      ori0 + (getRawMove rotf w maxDist eps ori0 action).2 := by
  unfold getNewPosition
  exact resolve_ori m pos0 _ ori0 _

/-- First map of `all_maps` (walls at columns 3-4 of the three bottom rows). -/
def rawMap0 : List (List Char) :=
  ["........".toList, "........".toList, "........".toList, "........".toList,
   "........".toList, "...##...".toList, "...##...".toList, "..S##G..".toList]

def tieMap : List (List Char) := normalizeMap rawMap0

/-- Pre-motion pose (2.45, 2.55) for the diagonal tie counterexample. -/
def tiePos0 : K × K := (⟨49, 0, 20, by decide⟩, ⟨51, 0, 20, by decide⟩)

/-- Displacement (0.1, -0.1): both times of impact equal 1/2. -/
def tieMv : K × K := (⟨1, 0, 10, by decide⟩, ⟨-1, 0, 10, by decide⟩)

def tiePos1 : K × K := (tiePos0.1 + tieMv.1, tiePos0.2 + tieMv.2)

/-- C3 counterexample: at pose0 = (2.45, 2.55) with displacement (0.1, -0.1)
on the first map, the proposed tile is a Wall, both tile indices change,
neither corner tile is a Wall, and the times of impact tx and ty are equal;
the resolver keeps the proposed y and clamps x — the opposite of the claim
that ties clamp the y axis and keep the proposed x. -/
theorem resolve_tie_counterexample :
    tileTypeAtPos tieMap tiePos1 = 'W' ∧
    npRound tiePos0.1 ≠ npRound tiePos1.1 ∧
    npRound tiePos0.2 ≠ npRound tiePos1.2 ∧
    tileTypeAtPos tieMap (((npRound tiePos1.1 : ℤ) : K), ((npRound tiePos0.2 : ℤ) : K)) ≠ 'W' ∧
    tileTypeAtPos tieMap (((npRound tiePos0.1 : ℤ) : K), ((npRound tiePos1.2 : ℤ) : K)) ≠ 'W' ∧
    keq (((((npRound tiePos0.1 : ℤ) : K) + ((npRound tiePos1.1 : ℤ) : K)) / 2 - tiePos0.1) /
          (tiePos1.1 - tiePos0.1))
        (((((npRound tiePos0.2 : ℤ) : K) + ((npRound tiePos1.2 : ℤ) : K)) / 2 - tiePos0.2) /
          (tiePos1.2 - tiePos0.2)) ∧
    ¬ keq ((resolve tieMap tiePos0 tieMv 0 0).1.1) tiePos1.1 ∧
    keq ((resolve tieMap tiePos0 tieMv 0 0).1.2) tiePos1.2 :=
  ⟨by decide, by decide, by decide, by decide, by decide, by decide, by decide, by decide⟩

/-- C3 amended theorem: in the diagonal collision case (proposed tile is a
Wall, both tile indices changed, neither corner-adjacent tile is a Wall),
when the times of impact are equal (tx = ty) the resolver clamps the x
coordinate to the near-wall x and keeps the proposed y coordinate. -/
theorem resolve_tie_clamps_x (m : List (List Char)) (pos0 mv : K × K) (ori0 dori : K)
    (hW : tileTypeAtPos m (pos0.1 + mv.1, pos0.2 + mv.2) = 'W')
    (hdtx : npRound pos0.1 ≠ npRound (pos0.1 + mv.1))
    (hdty : npRound pos0.2 ≠ npRound (pos0.2 + mv.2))
    (hew : tileTypeAtPos m (((npRound (pos0.1 + mv.1) : ℤ) : K),
      ((npRound pos0.2 : ℤ) : K)) ≠ 'W')
    (hns : tileTypeAtPos m (((npRound pos0.1 : ℤ) : K),
      ((npRound (pos0.2 + mv.2) : ℤ) : K)) ≠ 'W')
    (htie : keq (((((npRound pos0.1 : ℤ) : K) + ((npRound (pos0.1 + mv.1) : ℤ) : K)) / 2 -
          pos0.1) / ((pos0.1 + mv.1) - pos0.1))
        (((((npRound pos0.2 : ℤ) : K) + ((npRound (pos0.2 + mv.2) : ℤ) : K)) / 2 -
          pos0.2) / ((pos0.2 + mv.2) - pos0.2))) :
    (resolve m pos0 mv ori0 dori).1 =
      ((((npRound pos0.1 : ℤ) : K) + ((npRound (pos0.1 + mv.1) : ℤ) : K)) / 2 -
          ksign mv.1 * centiK, pos0.2 + mv.2) := by
  have htlt : ¬ (((((npRound pos0.1 : ℤ) : K) + ((npRound (pos0.1 + mv.1) : ℤ) : K)) / 2 -
          pos0.1) / ((pos0.1 + mv.1) - pos0.1) <
        ((((npRound pos0.2 : ℤ) : K) + ((npRound (pos0.2 + mv.2) : ℤ) : K)) / 2 -
          pos0.2) / ((pos0.2 + mv.2) - pos0.2)) := by
    rw [keq_iff] at htie
    rw [klt_iff]
    push_neg
    rw [htie]
  simp only [resolve]
  rw [if_neg (not_not_intro hW)]
  rw [if_neg (fun h => hdty h.2)]
  rw [if_neg (fun h => hdtx h.2)]
  rw [if_pos ⟨hew, hns⟩]
  rw [if_neg htlt]

theorem resolve_tie_clamps_x_witness :
    (resolve tieMap tiePos0 tieMv 0 0).1 =
      ((((npRound tiePos0.1 : ℤ) : K) + ((npRound (tiePos0.1 + tieMv.1) : ℤ) : K)) / 2 -
          ksign tieMv.1 * centiK, tiePos0.2 + tieMv.2) :=
  resolve_tie_clamps_x tieMap tiePos0 tieMv 0 0 (by decide) (by decide) (by decide)
    (by decide) (by decide) (by decide)

theorem tileTypeAtPos_eq_idx (m : List (List Char)) (p : K × K) :
    tileTypeAtPos m p = tileAtIdx m 'W' (npRound p.1) (npRound p.2) :=
  tileAt_eq_idx m 'W' p

theorem tileTypeAtPos_intCast (m : List (List Char)) (x y : ℤ) :
    tileTypeAtPos m (((x : ℤ) : K), ((y : ℤ) : K)) = tileAtIdx m 'W' x y := by
  rw [tileTypeAtPos_eq_idx]
  simp only [npRound_intCast]

/-- A 2-row, 1-column map whose upper tile is a Hole. -/
def holeMap : List (List Char) := normalizeMap [['H'], ['F']]

/-- C1 counterexample: on a map with a Hole tile, starting from the Free tile
at (0, 0.4) (not a Wall and not a Hole) and driving straight up with motors
(1, 1) (max_action_distance 0.2, EPSILON 0.0001, exact rotation matrix at
heading 0), `_get_new_position` returns a pose whose discrete tile is the
Hole: the collision test only checks for Wall, so the resolver can and does
return Hole tiles, contradicting the claimed Wall-or-Hole guarantee. -/
theorem resolve_hole_counterexample :
    tileTypeAtPos holeMap ((0 : K), (⟨2, 0, 5, by decide⟩ : K)) = 'F' ∧
    tileTypeAtPos holeMap
      ((getNewPosition (fun _ => ((1 : K), (0 : K))) 1 fifthK (⟨1, 0, 10000, by decide⟩)
          holeMap ((0 : K), (⟨2, 0, 5, by decide⟩ : K)) 0 ((1 : K), (1 : K))).1) = 'H' :=
  ⟨by decide, by decide⟩

/-- When an axis changes tile under a displacement of magnitude at most 0.2,
the ending tile is the adjacent one in the direction of motion, and the
near-wall clamp `mid - sign(mv)*0.01` rounds back to the starting tile. -/
theorem nearWall_round (a mva : K)
    (hne : npRound a ≠ npRound (a + mva))
    (hb : |toReal mva| ≤ 1 / 5) :
    npRound ((((npRound a : ℤ) : K) + ((npRound (a + mva) : ℤ) : K)) / 2 -
        ksign mva * centiK) = npRound a ∧
    (npRound (a + mva) = npRound a + 1 ∨ npRound (a + mva) = npRound a - 1) := by
  have d0 := npRound_dist a
  have d1 := npRound_dist (a + mva)
  rw [toReal_add] at d1
  rw [abs_le] at d0 d1 hb
  have htwo : toReal (2 : K) ≠ 0 := by rw [toReal_ofNat]; norm_num
  rcases lt_trichotomy (toReal mva) 0 with hneg | hzero | hpos
  · have hu : ((npRound (a + mva) : ℤ) : ℝ) < ((npRound a : ℤ) : ℝ) + 1 := by linarith
    have hl2 : ((npRound a : ℤ) : ℝ) - 2 < ((npRound (a + mva) : ℤ) : ℝ) := by linarith
    have hu' : npRound (a + mva) < npRound a + 1 := by exact_mod_cast hu
    have hl2' : npRound a - 2 < npRound (a + mva) := by exact_mod_cast hl2
    have ht1 : npRound (a + mva) = npRound a - 1 := by omega
    refine ⟨?_, Or.inr ht1⟩
    rw [ksign_of_neg mva hneg]
    apply npRound_eq_of_close
    rw [toReal_sub, toReal_div _ _ htwo, toReal_add, toReal_intCast, toReal_intCast,
      toReal_mul, toReal_neg, toReal_one, toReal_centiK, toReal_ofNat, ht1]
    push_cast
    rw [abs_le]
    constructor <;> [linarith; linarith]
  · exfalso
    exact hne (npRound_congr a (a + mva) (by rw [toReal_add, hzero, add_zero])).symm.symm
  · have hl1 : ((npRound a : ℤ) : ℝ) - 1 < ((npRound (a + mva) : ℤ) : ℝ) := by linarith
    have hu2 : ((npRound (a + mva) : ℤ) : ℝ) < ((npRound a : ℤ) : ℝ) + 2 := by linarith
    have hl1' : npRound a - 1 < npRound (a + mva) := by exact_mod_cast hl1
    have hu2' : npRound (a + mva) < npRound a + 2 := by exact_mod_cast hu2
    have ht1 : npRound (a + mva) = npRound a + 1 := by omega
    refine ⟨?_, Or.inl ht1⟩
    rw [ksign_of_pos mva hpos]
    apply npRound_eq_of_close
    rw [toReal_sub, toReal_div _ _ htwo, toReal_add, toReal_intCast, toReal_intCast,
      toReal_mul, toReal_one, toReal_centiK, toReal_ofNat, ht1]
    push_cast
    rw [abs_le]
    constructor <;> [linarith; linarith]

/-- C1 amended theorem: for every map, every pre-motion pose whose discrete
tile is neither Wall nor Hole, and every displacement with per-axis magnitude
at most max_action_distance = 0.2 (every motor command in [-1,1]^2 produces
such a displacement), the pose returned by the collision resolver rounds to a
tile that is not a Wall.  (It may round to a Hole: entering a Hole terminates
the episode and is allowed by the code.) -/
theorem resolve_no_wall (m : List (List Char)) (pos0 mv : K × K) (ori0 dori : K)
    (hp0W : tileTypeAtPos m pos0 ≠ 'W') (_hp0H : tileTypeAtPos m pos0 ≠ 'H')
    (hmx : kabs mv.1 ≤ fifthK) (hmy : kabs mv.2 ≤ fifthK) :
    tileTypeAtPos m (resolve m pos0 mv ori0 dori).1 ≠ 'W' := by
  have hmx' : |toReal mv.1| ≤ 1 / 5 := by
    have h := (kle_iff _ _).mp hmx
    rw [toReal_kabs, toReal_fifthK] at h
    exact h
  have hmy' : |toReal mv.2| ≤ 1 / 5 := by
    have h := (kle_iff _ _).mp hmy
    rw [toReal_kabs, toReal_fifthK] at h
    exact h
  have hp0idx : tileAtIdx m 'W' (npRound pos0.1) (npRound pos0.2) ≠ 'W' := by
    rw [← tileTypeAtPos_eq_idx]
    exact hp0W
  simp only [resolve]
  by_cases h1 : tileTypeAtPos m (pos0.1 + mv.1, pos0.2 + mv.2) ≠ 'W'
  · rw [if_pos h1]
    exact h1
  · rw [if_neg h1]
    push_neg at h1
    have hWidx : tileAtIdx m 'W' (npRound (pos0.1 + mv.1)) (npRound (pos0.2 + mv.2)) = 'W' := by
      have h2 := h1
      simp only [tileTypeAtPos_eq_idx] at h2
      exact h2
    have hne0 : ¬ (npRound pos0.1 = npRound (pos0.1 + mv.1) ∧
        npRound pos0.2 = npRound (pos0.2 + mv.2)) := by
      rintro ⟨e1, e2⟩
      apply hp0idx
      rw [e1, e2]
      exact hWidx
    by_cases c2 : npRound pos0.1 ≠ npRound (pos0.1 + mv.1) ∧
        npRound pos0.2 = npRound (pos0.2 + mv.2)
    · rw [if_pos c2]
      obtain ⟨hdx, hdy⟩ := c2
      obtain ⟨hclampx, _⟩ := nearWall_round pos0.1 mv.1 hdx hmx'
      simp only [tileTypeAtPos_eq_idx]
      rw [hclampx, ← hdy]
      exact hp0idx
    · rw [if_neg c2]
      by_cases c3 : npRound pos0.2 ≠ npRound (pos0.2 + mv.2) ∧
          npRound pos0.1 = npRound (pos0.1 + mv.1)
      · rw [if_pos c3]
        obtain ⟨hdy, hdx⟩ := c3
        obtain ⟨hclampy, _⟩ := nearWall_round pos0.2 mv.2 hdy hmy'
        simp only [tileTypeAtPos_eq_idx]
        rw [hclampy, ← hdx]
        exact hp0idx
      · rw [if_neg c3]
        have hdx : npRound pos0.1 ≠ npRound (pos0.1 + mv.1) := by
          intro he
          by_cases hdy0 : npRound pos0.2 = npRound (pos0.2 + mv.2)
          · exact hne0 ⟨he, hdy0⟩
          · exact c3 ⟨hdy0, he⟩
        have hdy : npRound pos0.2 ≠ npRound (pos0.2 + mv.2) := by
          intro he
          exact c2 ⟨hdx, he⟩
        obtain ⟨hclampx, _⟩ := nearWall_round pos0.1 mv.1 hdx hmx'
        obtain ⟨hclampy, _⟩ := nearWall_round pos0.2 mv.2 hdy hmy'
        by_cases c4 : tileTypeAtPos m (((npRound (pos0.1 + mv.1) : ℤ) : K),
              ((npRound pos0.2 : ℤ) : K)) ≠ 'W' ∧
            tileTypeAtPos m (((npRound pos0.1 : ℤ) : K),
              ((npRound (pos0.2 + mv.2) : ℤ) : K)) ≠ 'W'
        · rw [if_pos c4]
          obtain ⟨hewc, hnsc⟩ := c4
          rw [tileTypeAtPos_intCast] at hewc hnsc
          split
          · simp only [tileTypeAtPos_eq_idx]
            rw [hclampy]
            exact hewc
          · simp only [tileTypeAtPos_eq_idx]
            rw [hclampx]
            exact hnsc
        · rw [if_neg c4]
          by_cases hEw : tileTypeAtPos m (((npRound (pos0.1 + mv.1) : ℤ) : K),
              ((npRound pos0.2 : ℤ) : K)) = 'W'
          · by_cases hNs : tileTypeAtPos m (((npRound pos0.1 : ℤ) : K),
                ((npRound (pos0.2 + mv.2) : ℤ) : K)) = 'W'
            · rw [if_pos hEw, if_pos hNs]
              simp only [tileTypeAtPos_eq_idx]
              rw [hclampx, hclampy]
              exact hp0idx
            · rw [if_pos hEw, if_neg hNs]
              simp only [tileTypeAtPos_eq_idx]
              rw [hclampx]
              rw [tileTypeAtPos_intCast] at hNs
              exact hNs
          · by_cases hNs : tileTypeAtPos m (((npRound pos0.1 : ℤ) : K),
                ((npRound (pos0.2 + mv.2) : ℤ) : K)) = 'W'
            · rw [if_neg hEw, if_pos hNs]
              simp only [tileTypeAtPos_eq_idx]
              rw [hclampy]
              rw [tileTypeAtPos_intCast] at hEw
              exact hEw
            · exact absurd ⟨hEw, hNs⟩ c4

theorem resolve_no_wall_witness :
    tileTypeAtPos (normalizeMap [['.', '#']]) ((⟨2, 0, 5, by decide⟩ : K), (0 : K)) ≠ 'W' ∧
    tileTypeAtPos (normalizeMap [['.', '#']]) ((⟨2, 0, 5, by decide⟩ : K), (0 : K)) ≠ 'H' ∧
    kabs (⟨1, 0, 5, by decide⟩ : K) ≤ fifthK ∧ kabs (0 : K) ≤ fifthK ∧
    tileTypeAtPos (normalizeMap [['.', '#']])
      ((resolve (normalizeMap [['.', '#']]) ((⟨2, 0, 5, by decide⟩ : K), (0 : K))
        ((⟨1, 0, 5, by decide⟩ : K), (0 : K)) 0 0).1) ≠ 'W' :=
  ⟨by decide, by decide, by decide, by decide,
    resolve_no_wall (normalizeMap [['.', '#']]) ((⟨2, 0, 5, by decide⟩ : K), (0 : K))
      ((⟨1, 0, 5, by decide⟩ : K), (0 : K)) 0 0 (by decide) (by decide) (by decide) (by decide)⟩

/-!
### Environment state, `reset` and `reset_to_state`

The environment record mirrors the fields of `MinibotEnv` used by the claims.
Orientation is stored as the (cos, sin) pair of its rotation matrix; the
twelve candidate orientations of `reset_to_state` are multiples of pi/6,
whose exact pairs are listed in source order below.  The random map
permutations drawn by `np.random.permutation` are passed as parameters.
-/

structure Env where
  radarRange : ℕ
  radarRes : K
  maps : List (List (List Char))
  bitMaps : List (List (List ℤ))
  currentMapIdx : ℕ
  agentPos : K × K
  agentOri : K × K

/-- `MinibotEnv.__init__`: normalize every raw map and derive its bit map.
The source performs no validation; the unset agent state (None in Python)
is given inert defaults. -/
def envInit (radarRange : ℕ) (radarRes : K) (rawMaps : List (List (List Char))) : Env :=
  { radarRange := radarRange
    radarRes := radarRes
    maps := rawMaps.map normalizeMap
    bitMaps := (rawMaps.map normalizeMap).map mkBitMap
    currentMapIdx := 0
    agentPos := ((0 : K), (0 : K))
    agentOri := ((1 : K), (0 : K)) }

/-- Row-major positions of the S cells (`np.nonzero(m == S)`). -/
def startCells (m : List (List Char)) : List (ℕ × ℕ) :=
  (List.range m.length).flatMap (fun r =>
    (List.range (m.getD r []).length).filterMap (fun c =>
      if (m.getD r []).getD c ' ' = 'S' then some (r, c) else none))

/-- `reset`, with the random map choice as a parameter.  Unpacking
`(start_r,), (start_c,) = np.nonzero(m == S)` raises unless the map has
exactly one S tile; the embedding returns an error in that case. -/
def reset (e : Env) (choice : ℕ) : Except Unit (Env × List ℤ) :=
  let m := e.maps.getD choice []
  match startCells m with
  | [rc] =>
    let pos := rcToXy m.length ((rc.1 : ℤ), (rc.2 : ℤ))
    let e2 := { e with currentMapIdx := choice, agentPos := pos,
                       agentOri := ((1 : K), (0 : K)) }
    Except.ok (e2, getObs e.radarRange e.radarRes pos ((1 : K), (0 : K))
      (e.bitMaps.getD choice []))
  | _ => Except.error ()

/-- sqrt 3 / 2, as an element of `K`. -/
def rt3half : K := ⟨0, 1, 2, by decide⟩

/-- The twelve candidate orientations of `reset_to_state`, as (cos, sin)
pairs, in source order: multiples of 90 degrees, then the same four plus 30
degrees, then the same four plus 60 degrees. -/
def oriList : List (K × K) :=
  [((1 : K), (0 : K)), ((0 : K), (1 : K)), ((-1 : K), (0 : K)), ((0 : K), (-1 : K)),
   (rt3half, khalf), (-khalf, rt3half), (-rt3half, -khalf), (khalf, -rt3half),
   (khalf, rt3half), (-rt3half, khalf), (-khalf, -rt3half), (rt3half, -khalf)]

/-- The integer tile-center candidate positions of a map: the flattened
`meshgrid(arange(cols), arange(rows))`, row index outer. -/
def gridPts (bm : List (List ℤ)) : List (K × K) :=
  (List.range bm.length).flatMap (fun j =>
    (List.range (bm.headD []).length).map (fun k => (((k : ℕ) : K), ((j : ℕ) : K))))

/-- The 5 per-axis offsets of round 2: -0.4, -0.2, 0, 0.2, 0.4. -/
def deltas : List K :=
  [⟨-2, 0, 5, by decide⟩, ⟨-1, 0, 5, by decide⟩, (0 : K),
   ⟨1, 0, 5, by decide⟩, ⟨2, 0, 5, by decide⟩]

/-- Round-1 candidates: for each map of the permutation, each orientation,
each tile-center point. -/
def cands1 (e : Env) (perm : List ℕ) : List (ℕ × (K × K) × (K × K)) :=
  perm.flatMap (fun i =>
    oriList.flatMap (fun o =>
      (gridPts (e.bitMaps.getD i [])).map (fun p => (i, o, p))))

/-- Round-2 candidates: additionally crossed with the 25 offset pairs. -/
def cands2 (e : Env) (perm : List ℕ) : List (ℕ × (K × K) × (K × K)) :=
  perm.flatMap (fun i =>
    oriList.flatMap (fun o =>
      (gridPts (e.bitMaps.getD i [])).flatMap (fun p =>
        deltas.flatMap (fun dx =>
          deltas.map (fun dy => (i, o, (p.1 + dx, p.2 + dy)))))))

/-- `np.all(start_obs == obs)` for a candidate. -/
def obsMatch (e : Env) (startObs : List ℤ) (c : ℕ × (K × K) × (K × K)) : Bool :=
  decide (getObs e.radarRange e.radarRes c.2.2 c.2.1 (e.bitMaps.getD c.1 []) = startObs)

/-- `reset_to_state`: scan round-1 candidates then round-2 candidates and
adopt the first whose observation matches; raise (error, state unchanged)
when both rounds are exhausted. -/
def resetToState (e : Env) (startObs : List ℤ) (perm1 perm2 : List ℕ) :
    Except (List ℤ) (List ℤ) × Env :=
  match (cands1 e perm1 ++ cands2 e perm2).find? (obsMatch e startObs) with
  | some c => (Except.ok startObs,
      { e with currentMapIdx := c.1, agentOri := c.2.1, agentPos := c.2.2 })
  | none => (Except.error startObs, e)

theorem mem_cands1_of (e : Env) (perm : List ℕ) (i : ℕ) (o : K × K) (p : K × K)
    (hi : i ∈ perm) (ho : o ∈ oriList) (hp : p ∈ gridPts (e.bitMaps.getD i [])) :
    (i, o, p) ∈ cands1 e perm := by
  unfold cands1
  rw [List.mem_flatMap]
  refine ⟨i, hi, ?_⟩
  rw [List.mem_flatMap]
  refine ⟨o, ho, ?_⟩
  rw [List.mem_map]
  exact ⟨p, hp, rfl⟩

theorem mem_cands2_of (e : Env) (perm : List ℕ) (i : ℕ) (o : K × K) (p : K × K)
    (dx dy : K) (hi : i ∈ perm) (ho : o ∈ oriList)
    (hp : p ∈ gridPts (e.bitMaps.getD i [])) (hdx : dx ∈ deltas) (hdy : dy ∈ deltas) :
    (i, o, (p.1 + dx, p.2 + dy)) ∈ cands2 e perm := by
  unfold cands2
  rw [List.mem_flatMap]
  refine ⟨i, hi, ?_⟩
  rw [List.mem_flatMap]
  refine ⟨o, ho, ?_⟩
  rw [List.mem_flatMap]
  refine ⟨p, hp, ?_⟩
  rw [List.mem_flatMap]
  refine ⟨dx, hdx, ?_⟩
  rw [List.mem_map]
  exact ⟨dy, hdy, rfl⟩

theorem mem_cands1_elim (e : Env) (perm : List ℕ) (c : ℕ × (K × K) × (K × K))
    (hc : c ∈ cands1 e perm) :
    c.1 ∈ perm ∧ c.2.1 ∈ oriList ∧ c.2.2 ∈ gridPts (e.bitMaps.getD c.1 []) := by
  unfold cands1 at hc
  rw [List.mem_flatMap] at hc
  obtain ⟨i, hi, hc⟩ := hc
  rw [List.mem_flatMap] at hc
  obtain ⟨o, ho, hc⟩ := hc
  rw [List.mem_map] at hc
  obtain ⟨p, hp, rfl⟩ := hc
  exact ⟨hi, ho, hp⟩

theorem mem_cands2_elim (e : Env) (perm : List ℕ) (c : ℕ × (K × K) × (K × K))
    (hc : c ∈ cands2 e perm) :
    ∃ p dx dy, c.1 ∈ perm ∧ c.2.1 ∈ oriList ∧ p ∈ gridPts (e.bitMaps.getD c.1 []) ∧
      dx ∈ deltas ∧ dy ∈ deltas ∧ c.2.2 = (p.1 + dx, p.2 + dy) := by
  unfold cands2 at hc
  rw [List.mem_flatMap] at hc
  obtain ⟨i, hi, hc⟩ := hc
  rw [List.mem_flatMap] at hc
  obtain ⟨o, ho, hc⟩ := hc
  rw [List.mem_flatMap] at hc
  obtain ⟨p, hp, hc⟩ := hc
  rw [List.mem_flatMap] at hc
  obtain ⟨dx, hdx, hc⟩ := hc
  rw [List.mem_map] at hc
  obtain ⟨dy, hdy, rfl⟩ := hc
  exact ⟨p, dx, dy, hi, ho, hp, hdx, hdy, rfl⟩

/-- C2 (confirmed): with the random map orders given as permutations of the
map indices, `reset_to_state` raises (carrying the offending observation)
exactly when no candidate of the two enumeration rounds — the 12
orientations crossed with every integer tile-center position, then
additionally crossed with the 25 offsets — matches the target observation on
any map; otherwise it returns the target observation with the agent
position, orientation and map index set to a state whose sensor output
equals the target exactly. -/
theorem resetToState_spec (e : Env) (startObs : List ℤ) (p1 p2 : List ℕ)
    (h1 : p1.Perm (List.range e.bitMaps.length))
    (h2 : p2.Perm (List.range e.bitMaps.length)) :
    ((resetToState e startObs p1 p2).1 = Except.error startObs ↔
      ∀ i < e.bitMaps.length, ∀ o ∈ oriList, ∀ p ∈ gridPts (e.bitMaps.getD i []),
        getObs e.radarRange e.radarRes p o (e.bitMaps.getD i []) ≠ startObs ∧
        ∀ dx ∈ deltas, ∀ dy ∈ deltas,
          getObs e.radarRange e.radarRes (p.1 + dx, p.2 + dy) o
            (e.bitMaps.getD i []) ≠ startObs) ∧
    (∀ r env2, resetToState e startObs p1 p2 = (Except.ok r, env2) →
      r = startObs ∧
      getObs env2.radarRange env2.radarRes env2.agentPos env2.agentOri
        (env2.bitMaps.getD env2.currentMapIdx []) = startObs) := by
  have hmem1 : ∀ i, i ∈ p1 ↔ i < e.bitMaps.length := by
    intro i
    rw [h1.mem_iff, List.mem_range]
  have hmem2 : ∀ i, i ∈ p2 ↔ i < e.bitMaps.length := by
    intro i
    rw [h2.mem_iff, List.mem_range]
  constructor
  · unfold resetToState
    cases hf : (cands1 e p1 ++ cands2 e p2).find? (obsMatch e startObs) with
    | some c =>
      simp only
      constructor
      · intro habs
        exact absurd habs (by simp)
      · intro hall
        exfalso
        have hcm := List.find?_some hf
        have hcmem := List.mem_of_find?_eq_some hf
        have hobs : getObs e.radarRange e.radarRes c.2.2 c.2.1
            (e.bitMaps.getD c.1 []) = startObs := of_decide_eq_true hcm
        rw [List.mem_append] at hcmem
        cases hcmem with
        | inl hc1 =>
          obtain ⟨hi, ho, hp⟩ := mem_cands1_elim e p1 c hc1
          exact (hall c.1 ((hmem1 c.1).mp hi) c.2.1 ho c.2.2 hp).1 hobs
        | inr hc2 =>
          obtain ⟨p, dx, dy, hi, ho, hp, hdx, hdy, hpt⟩ := mem_cands2_elim e p2 c hc2
          rw [hpt] at hobs
          exact (hall c.1 ((hmem2 c.1).mp hi) c.2.1 ho p hp).2 dx hdx dy hdy hobs
    | none =>
      simp only
      have hnone := List.find?_eq_none.mp hf
      constructor
      · intro _
        intro i hi o ho p hp
        constructor
        · intro hobs
          have hc1 : (i, o, p) ∈ cands1 e p1 ++ cands2 e p2 := by
            rw [List.mem_append]
            exact Or.inl (mem_cands1_of e p1 i o p ((hmem1 i).mpr hi) ho hp)
          exact hnone _ hc1 (decide_eq_true hobs)
        · intro dx hdx dy hdy hobs
          have hc2 : (i, o, (p.1 + dx, p.2 + dy)) ∈ cands1 e p1 ++ cands2 e p2 := by
            rw [List.mem_append]
            exact Or.inr (mem_cands2_of e p2 i o p dx dy ((hmem2 i).mpr hi) ho hp hdx hdy)
          exact hnone _ hc2 (decide_eq_true hobs)
      · intro _
        trivial
  · intro r env2 heq
    unfold resetToState at heq
    cases hf : (cands1 e p1 ++ cands2 e p2).find? (obsMatch e startObs) with
    | some c =>
      rw [hf] at heq
      have hr : Except.ok (ε := List ℤ) startObs = Except.ok r := congrArg Prod.fst heq
      have henv := congrArg Prod.snd heq
      simp only at hr henv
      have hr' : startObs = r := by
        injection hr
      have hcm := List.find?_some hf
      have hobs : getObs e.radarRange e.radarRes c.2.2 c.2.1
          (e.bitMaps.getD c.1 []) = startObs := of_decide_eq_true hcm
      subst hr'
      rw [← henv]
      exact ⟨rfl, hobs⟩
    | none =>
      rw [hf] at heq
      have hr := congrArg Prod.fst heq
      simp only at hr
      cases hr

/-- An environment with no maps (the search space is empty). -/
def emptyEnv : Env := envInit 0 (1 : K) []

theorem resetToState_spec_witness :
    (([] : List ℕ).Perm (List.range emptyEnv.bitMaps.length)) ∧
    (((resetToState emptyEnv [2] [] []).1 = Except.error [2] ↔
      ∀ i < emptyEnv.bitMaps.length, ∀ o ∈ oriList,
        ∀ p ∈ gridPts (emptyEnv.bitMaps.getD i []),
        getObs emptyEnv.radarRange emptyEnv.radarRes p o
          (emptyEnv.bitMaps.getD i []) ≠ [2] ∧
        ∀ dx ∈ deltas, ∀ dy ∈ deltas,
          getObs emptyEnv.radarRange emptyEnv.radarRes (p.1 + dx, p.2 + dy) o
            (emptyEnv.bitMaps.getD i []) ≠ [2]) ∧
    (∀ r env2, resetToState emptyEnv [2] [] [] = (Except.ok r, env2) →
      r = [2] ∧
      getObs env2.radarRange env2.radarRes env2.agentPos env2.agentOri
        (env2.bitMaps.getD env2.currentMapIdx []) = [2])) :=
  ⟨by decide, resetToState_spec emptyEnv [2] [] [] (by decide) (by decide)⟩

/-- C10 (confirmed): when `reset_to_state` fails (raises after exhausting
both rounds), the simulator state — agent position, orientation and current
map index — is exactly the state before the call. -/
theorem resetToState_error_preserves_state (e : Env) (startObs : List ℤ)
    (p1 p2 : List ℕ) (err : List ℤ)
    (h : (resetToState e startObs p1 p2).1 = Except.error err) :
    (resetToState e startObs p1 p2).2 = e := by
  unfold resetToState at h ⊢
  cases hf : (cands1 e p1 ++ cands2 e p2).find? (obsMatch e startObs) with
  | some c =>
    rw [hf] at h
    simp only at h
    cases h
  | none =>
    rfl

theorem resetToState_error_preserves_state_witness :
    (resetToState emptyEnv [2] [] []).1 = Except.error [2] ∧
    (resetToState emptyEnv [2] [] []).2 = emptyEnv :=
  ⟨rfl, resetToState_error_preserves_state emptyEnv [2] [] [] [2] rfl⟩

/-- C6 counterexample: construction does not fail on a map with a character
outside the recognized legend: normalizing a raw map containing q simply
keeps the (uppercased) unknown character Q in the canonical grid, so no
error of any kind is raised at load time. -/
theorem mapInit_no_validation_counterexample :
    normalizeMap [['S', 'q']] = [['S', 'Q']] ∧
    ('Q' ≠ 'F' ∧ 'Q' ≠ 'W' ∧ 'Q' ≠ 'H' ∧ 'Q' ≠ 'S' ∧ 'Q' ≠ 'G') :=
  ⟨by decide, by decide⟩

/-- C6 amended theorem: map construction never raises.  Normalization is a
total per-character substitution: it preserves the number of rows and the
length of every row (ragged rows included), and any character whose
uppercase form is outside the recognized legend is kept as that uppercase
form.  A Start-tile count different from one is only detected later, when
`reset` unpacks the start cell of the chosen map and fails. -/
theorem mapInit_total :
    (∀ raw : List (List Char), (normalizeMap raw).length = raw.length) ∧
    (∀ (raw : List (List Char)) (i : ℕ),
      ((normalizeMap raw).getD i []).length = (raw.getD i []).length) ∧
    (∀ c : Char, c.toUpper ∉ ['.', ' ', 'X', '#', 'O'] → normChar c = c.toUpper) ∧
    (reset (envInit 2 (1 : K) [[['F']]]) 0 = Except.error ()) := by
  refine ⟨?_, ?_, ?_, ?_⟩
  · intro raw
    simp [normalizeMap]
  · intro raw i
    unfold normalizeMap
    rcases lt_or_ge i raw.length with h | h
    · rw [List.getD_eq_getElem _ _ (by simpa using h), List.getD_eq_getElem _ _ h]
      simp
    · rw [List.getD_eq_default _ _ (by simpa using h), List.getD_eq_default _ _ h]
  · intro c hc
    simp only [List.mem_cons, List.not_mem_nil, or_false] at hc
    push_neg at hc
    obtain ⟨n1, n2, n3, n4, n5⟩ := hc
    unfold normChar
    rw [if_neg (by rintro (h | h); exacts [n1 h, n2 h]),
      if_neg (by rintro (h | h); exacts [n3 h, n4 h]), if_neg n5]
  · rfl

theorem mapInit_total_witness :
    (normalizeMap [['s', 'q'], ['#']]).length = ([['s', 'q'], ['#']] : List (List Char)).length ∧
    ((normalizeMap [['s', 'q'], ['#']]).getD 0 []).length =
      (([['s', 'q'], ['#']] : List (List Char)).getD 0 []).length ∧
    ('q'.toUpper ∉ ['.', ' ', 'X', '#', 'O']) ∧ normChar 'q' = 'q'.toUpper :=
  ⟨mapInit_total.1 [['s', 'q'], ['#']], mapInit_total.2.1 [['s', 'q'], ['#']] 0,
    by decide, mapInit_total.2.2.1 'q' (by decide)⟩
